import Mathlib

/-!
Shallow embedding of `src/pyautokit/backup_manager.py` (class `BackupManager`).

File names are modelled as lists of characters (`FName`), paths as lists of
file-name components, file contents as lists of bytes (`Content`).  Machine
behaviour that matters here is string processing (Python `PurePath.suffix`,
`PurePath.suffixes`, glob matching), Python list slicing (`backups[keep:]`),
Python's stable `sorted`, and the control flow of the methods
`create_backup`, `_cleanup_old_backups`, `list_backups`, `restore_backup`.
Archive bytes on disk are abstracted to structured archive values (the entry
lists that `zipfile`/`tarfile` write and read back); DEFLATE/gzip coding is
below this abstraction, which is exactly what those libraries guarantee.
-/

namespace Pyautokit

/-- A file name (or name fragment): a list of characters. -/
abbrev FName := List Char

/-- A path: a list of file-name components. -/
abbrev FPath := List FName

/-- File contents: a list of bytes. -/
abbrev Content := List Nat

/-! ### Python `PurePath.suffix` / `PurePath.suffixes`

CPython (pathlib):
  `suffix`: `i = name.rfind('.'); return name[i:] if 0 < i < len(name)-1 else ''`
  `suffixes`: `[] if name.endswith('.') else
               ['.'+s for s in name.lstrip('.').split('.')[1:]]`
-/

/-- The tail of `n` starting at its last dot, when `n` contains a dot. -/
def lastDotTail : FName → Option FName
  | [] => none
  | c :: cs =>
    match lastDotTail cs with
    | some s => some s
    | none => if c = '.' then some (c :: cs) else none

/-- Python `PurePath.suffix` of a file name: the substring from the last dot,
unless the dot is the first or the last character of the name. -/
def pySuffix (n : FName) : FName :=
  match lastDotTail n with
  | none => []
  | some s => if 2 ≤ s.length ∧ s.length < n.length then s else []

/-- Strip all leading dots (Python `str.lstrip('.')`). -/
def dropDots (n : FName) : FName := n.dropWhile (fun c => c = '.')

/-- Split a name on `'.'` (Python `str.split('.')`); never returns `[]`. -/
def splitDots : FName → List FName
  | [] => [[]]
  | c :: cs =>
    if c = '.' then [] :: splitDots cs
    else
      match splitDots cs with
      | [] => [[c]]
      | p :: ps => (c :: p) :: ps

/-- Python `PurePath.suffixes` of a file name. -/
def pySuffixes (n : FName) : List FName :=
  if n.getLast? = some '.' then []
  else ((splitDots (dropDots n)).tail).map (fun p => '.' :: p)

/-! ### fnmatch-style glob matching

`pathlib.Path.glob` matches a single-component pattern with `fnmatch`
semantics; the patterns this program builds use only literal characters and
`*` (plus whatever characters the logical name itself contains). The matcher
below implements `*` (any sequence) and `?` (any one character); character
classes (`[...]`) are not modelled, so theorems that interpret a pattern
assume the logical name has no glob metacharacters where faithfulness
requires it. -/

/-- fnmatch matching with explicit fuel; every recursive call strictly
decreases `pattern.length + string.length`, so fuel above that bound gives
the total matching function (`globMatch` below). -/
def globMatchF : Nat → List Char → List Char → Bool
  | 0, _, _ => false
  | _ + 1, [], s => s.isEmpty
  | f + 1, p :: ps, [] => p = '*' && globMatchF f ps []
  | f + 1, p :: ps, c :: cs =>
    if p = '*' then globMatchF f ps (c :: cs) || globMatchF f (p :: ps) cs
    else if p = '?' then globMatchF f ps cs
    else p = c && globMatchF f ps cs

/-- fnmatch-style matcher for patterns made of literals, `*` and `?`. -/
def globMatch (p s : List Char) : Bool :=
  globMatchF (p.length + s.length + 1) p s

/-- A character is glob-significant for our matcher / fnmatch. -/
def globSpecial (c : Char) : Bool := c = '*' || c = '?' || c = '['

/-! ### Restore dispatch (`restore_backup`, lines 187-198)

`if backup_path.suffix == ".zip": …zipfile…`
`elif ".tar" in backup_path.suffixes: …tarfile.open(…, "r:*")…`
`else: …copy…` -/

/-- The codec `restore_backup` dispatches to, from the archive file name. -/
inductive Codec
  | zip
  | tar
  | copy
deriving DecidableEq, Repr

/-- Format sniffing of `restore_backup`: `.zip` last suffix → ZIP codec,
otherwise `.tar` among the suffixes → TAR codec, otherwise plain copy. -/
def sniffCodec (n : FName) : Codec :=
  if pySuffix n = ".zip".toList then Codec.zip
  else if ".tar".toList ∈ pySuffixes n then Codec.tar
  else Codec.copy

/-! ### Sources and archives

A source is the object `create_backup` is pointed at: a single file, or a
directory whose (recursively enumerated) files are relative paths with
contents — exactly what `source.rglob("*")` / `tar.add` traverse. An
`Archive` is the object a backup leaves in the backup directory: a plain
copied file, a copied tree, or a ZIP/TAR container holding entries; the
container's byte-level coding (DEFLATE, gzip) is below this abstraction,
which is what `zipfile`/`tarfile` guarantee to invert. -/

inductive Source
  | file (nm : FName) (content : Content)
  | dir (nm : FName) (files : List (FPath × Content))
deriving DecidableEq, Repr

/-- `source.name` (the base name of the source path). -/
def Source.sname : Source → FName
  | .file n _ => n
  | .dir n _ => n

/-- The files of the source tree, with their contents (a single file counts
as the one file of its own tree). -/
def sourceFiles : Source → List (FPath × Content)
  | .file n c => [([n], c)]
  | .dir _ fs => fs

inductive Archive
  | plainFile (content : Content)
  | plainDir (files : List (FPath × Content))
  | zipArc (entries : List (FPath × Content))
  | tarArc (gz : Bool) (entries : List (FPath × Content))
deriving DecidableEq, Repr

/-- `_create_zip_backup` (lines 42-60): a file is stored under its base name;
for a directory every contained file is stored relative to `source.parent`,
i.e. rooted at the source's own name. -/
def createZipBackup : Source → Archive
  | .file n c => .zipArc [([n], c)]
  | .dir n fs => .zipArc (fs.map (fun e => (n :: e.1, e.2)))

/-- `_create_tar_backup` (lines 62-77): `tar.add(source, arcname=source.name)`
adds the whole tree rooted at the source's base name; `gz` selects mode
`"w:gz"`. -/
def createTarBackup (gz : Bool) : Source → Archive
  | .file n c => .tarArc gz [([n], c)]
  | .dir n fs => .tarArc gz (fs.map (fun e => (n :: e.1, e.2)))

/-- The no-compression branch of `create_backup` (lines 112-118):
`shutil.copy2` for a file, `shutil.copytree` for a directory. -/
def createCopyBackup : Source → Archive
  | .file _ c => .plainFile c
  | .dir _ fs => .plainDir fs

/-- The extension chain of `create_backup` (lines 103-114). -/
def extFor (compression : String) : FName :=
  if compression = "zip" then ".zip".toList
  else if compression = "tar" then ".tar".toList
  else if compression = "tar.gz" then ".tar.gz".toList
  else []

/-- Which archive value the `create_backup` dispatch writes. -/
def makeArchive (compression : String) (src : Source) : Archive :=
  if compression = "zip" then createZipBackup src
  else if compression = "tar" then createTarBackup false src
  else if compression = "tar.gz" then createTarBackup true src
  else createCopyBackup src

/-- The archive file name `f"{name}_{timestamp}"` plus the format extension
(lines 104, 107, 110, 114). No validation of `nm` is performed anywhere. -/
def buildArchiveName (nm ts : FName) (compression : String) : FName :=
  nm ++ '_' :: (ts ++ extFor compression)

/-! ### The backup directory -/

/-- One entry of the backup directory listing: file name, modification time,
size, and the archive object stored there. The listing's order is the
filesystem enumeration order that `glob` yields. -/
structure DirEntry where
  fname : FName
  mtime : Nat
  sizeBytes : Nat
  stored : Archive
deriving DecidableEq, Repr

/-- `key=lambda p: p.stat().st_mtime, reverse=True`: newest first. Python's
`sorted` is stable; so is `insertionSort` with this reflexive relation, and a
stable sort's output is uniquely determined, so the two agree. -/
def mtimeDesc (a b : DirEntry) : Prop := b.mtime ≤ a.mtime

instance : DecidableRel mtimeDesc := fun a b => Nat.decLe b.mtime a.mtime

instance : IsTotal DirEntry mtimeDesc := ⟨fun a b => Nat.le_total b.mtime a.mtime⟩

instance : IsTrans DirEntry mtimeDesc := ⟨fun _ _ _ h1 h2 => Nat.le_trans h2 h1⟩

/-- Python list slicing `xs[k:]`, including negative `k` semantics. -/
def pySliceFrom (xs : List α) (k : Int) : List α :=
  if 0 ≤ k then xs.drop k.toNat
  else xs.drop (max ((xs.length : Int) + k) 0).toNat

/-- The sorted glob of `_cleanup_old_backups` (lines 132-137):
`sorted(backup_dir.glob(f"{name}_*"), key=mtime, reverse=True)`. -/
def sortCands (st : List DirEntry) (nm : FName) : List DirEntry :=
  List.insertionSort mtimeDesc
    (st.filter (fun e => globMatch (nm ++ "_*".toList) e.fname))

/-- The deletion loop of `_cleanup_old_backups` (lines 139-141): unlink each
excess archive in order. `failing` marks archives whose `unlink` raises; the
loop body has no exception handler, so the first failure aborts the loop and
the exception escapes. Returns the deleted names, the directory afterwards,
and the escaped exception (the failing name), if any. -/
def deleteLoop (failing : FName → Bool) (st : List DirEntry) :
    List DirEntry → List FName × List DirEntry × Option FName
  | [] => ([], st, none)
  | e :: rest =>
    if failing e.fname then ([], st, some e.fname)
    else
      let r := deleteLoop failing (st.filter (fun x => decide ¬x.fname = e.fname)) rest
      (e.fname :: r.1, r.2)

/-- `_cleanup_old_backups(name)` (lines 126-141): glob `{name}_*`, stable-sort
newest first, and unlink everything in `backups[self.keep_versions:]`
(Python slice semantics). The method returns `None`; deletions and the
possible exception are its only effects. -/
def cleanupRun (failing : FName → Bool) (st : List DirEntry) (nm : FName) (keep : Int) :
    List FName × List DirEntry × Option FName :=
  deleteLoop failing st (pySliceFrom (sortCands st nm) keep)

/-- Removal of a set of file names from a directory listing; successive
unlinks of distinct names compose to this. -/
def removeNames (st : List DirEntry) (names : List FName) : List DirEntry :=
  st.filter (fun x => decide (x.fname ∉ names))

/-- Outcome of a `create_backup` call: returned `None` (missing source),
returned an archive path, or let an exception escape. -/
inductive CreateResult
  | noSource
  | ok (archiveName : FName)
  | raised (archiveName : FName)
deriving DecidableEq, Repr

/-- `create_backup(source, name)` (lines 79-124). `src?` is `none` iff the
source path does not exist. `ts` is the `_get_timestamp()` string; `now` and
`sz` are the created archive's modification time and size as the filesystem
reports them. The archive is written into the listing, then
`_cleanup_old_backups(name)` runs; an exception it raises escapes
`create_backup`, which has no handler. -/
def createBackup (failing : FName → Bool) (src? : Option Source) (name? : Option FName)
    (compression : String) (ts : FName) (now sz : Nat) (keep : Int)
    (st : List DirEntry) : CreateResult × List DirEntry :=
  match src? with
  | none => (.noSource, st)
  | some src =>
    let nm := name?.getD src.sname
    let bname := buildArchiveName nm ts compression
    let st1 := st ++ [⟨bname, now, sz, makeArchive compression src⟩]
    let r := cleanupRun failing st1 nm keep
    match r.2.2 with
    | some f => (.raised f, r.2.1)
    | none => (.ok bname, r.2.1)

/-! ### `list_backups` -/

/-- One info dict of `list_backups`: file name, size and mtime read from
`stat()` (`format_bytes` and `isoformat`, absent from `src/`, are
presentational and kept as the raw numbers they format). -/
structure BackupInfo where
  fname : FName
  sizeBytes : Nat
  created : Nat
deriving DecidableEq, Repr

/-- `sorted(backup_dir.glob(pattern))` sorts paths; with one common parent
directory that is ascending lexicographic order of the file names, which the
`LinearOrder (List Char)` order coincides with (code-point comparison,
proper prefixes first). -/
def nameAsc (a b : DirEntry) : Prop := a.fname ≤ b.fname

instance : DecidableRel nameAsc := fun a b =>
  inferInstanceAs (Decidable (a.fname ≤ b.fname))

instance : IsTotal DirEntry nameAsc := ⟨fun a b => le_total a.fname b.fname⟩

instance : IsTrans DirEntry nameAsc := ⟨fun _ _ _ h1 h2 => le_trans h1 h2⟩

/-- The glob pattern of `list_backups` (line 152): `f"{name}_*" if name else
"*"` (Python truthiness: `None` and the empty string both fall back to `*`). -/
def listPattern (name? : Option FName) : FName :=
  match name? with
  | some nm => if nm = [] then "*".toList else nm ++ "_*".toList
  | none => "*".toList

/-- The info dict built for one directory entry (lines 157-162). -/
def toInfo (e : DirEntry) : BackupInfo :=
  ⟨e.fname, e.sizeBytes, e.mtime⟩

/-- `list_backups(name)` (lines 143-164): glob, `sorted(...)` ascending over
the resulting paths, one info dict per entry. -/
def listBackups (st : List DirEntry) (name? : Option FName) : List BackupInfo :=
  (List.insertionSort nameAsc
    (st.filter (fun e => globMatch (listPattern name?) e.fname))).map toInfo

/-! ### `restore_backup` -/

/-- The `try` body of `restore_backup` (lines 187-198): open the archive with
the codec the file name sniffs to and extract/copy to `dest` (modelled as a
fresh destination path). Opening a non-container with `zipfile`/`tarfile`
raises (`BadZipFile` / `ReadError`); a plain copy always succeeds and copies
the disk object as it is. Restored items are pairs of an absolute path and
the disk object placed there (regular files appear as `Archive.plainFile`). -/
def readArchive (codec : Codec) (a : Archive) (dest : FPath) :
    Except String (List (FPath × Archive)) :=
  match codec with
  | .zip =>
    match a with
    | .zipArc entries => .ok (entries.map (fun e => (dest ++ e.1, .plainFile e.2)))
    | _ => .error "BadZipFile"
  | .tar =>
    match a with
    | .tarArc _ entries => .ok (entries.map (fun e => (dest ++ e.1, .plainFile e.2)))
    | _ => .error "ReadError"
  | .copy =>
    match a with
    | .plainDir fs => .ok (fs.map (fun e => (dest ++ e.1, Archive.plainFile e.2)))
    | x => .ok [(dest, x)]

/-- `restore_backup(backup_path, destination)` (lines 166-204): missing
archive → `False` before any I/O; otherwise the suffix dispatch runs inside
`try`, and any exception is caught and reported as `False`. Returns the
success flag and the items placed under `dest`. -/
def restoreBackup (st : List DirEntry) (archName : FName) (dest : FPath) :
    Bool × List (FPath × Archive) :=
  match st.find? (fun e => e.fname == archName) with
  | none => (false, [])
  | some e =>
    match readArchive (sniffCodec archName) e.stored dest with
    | .ok fs => (true, fs)
    | .error _ => (false, [])

/-! ### Concrete fixtures used by witnesses and counterexamples -/

def exOld : DirEntry := ⟨"n_20240101_000000".toList, 100, 1, Archive.plainFile [0]⟩

def exMid : DirEntry := ⟨"n_20240102_000000".toList, 200, 1, Archive.plainFile [0]⟩

def exNew : DirEntry := ⟨"n_20240103_000000".toList, 300, 1, Archive.plainFile [0]⟩

def exTieA : DirEntry := ⟨"n_a".toList, 100, 1, Archive.plainFile [0]⟩

def exTieB : DirEntry := ⟨"n_b".toList, 100, 1, Archive.plainFile [0]⟩

def exHist : DirEntry :=
  ⟨"n_history_20240101_000000.zip".toList, 50, 2, Archive.zipArc [(["h".toList], [3])]⟩

def exOther : DirEntry := ⟨"m_20240101_000000.zip".toList, 60, 2, Archive.zipArc []⟩

def exSrcFile : Source := .file "data.txt".toList [1, 2, 3]

def exSrcTar : Source := .file "a.tar.b".toList [9]

def exSrcDir : Source :=
  .dir "proj".toList [(["a.txt".toList], [1]), (["sub".toList, "b.txt".toList], [2])]

def exTs : FName := "20240105_120000".toList

/-! ### Spec-side definitions (for refinement comparisons)

These follow the SPEC's words, not the source, and exist only to be compared
with the functions above. -/

/-- Modelled from the spec (§4.3): prune "sorts `allArchivesForName` by
modification time descending (ties: file name descending)". -/
def specPruneOrder (a b : DirEntry) : Prop :=
  b.mtime < a.mtime ∨ (a.mtime = b.mtime ∧ b.fname ≤ a.fname)

instance : DecidableRel specPruneOrder := fun a b =>
  inferInstanceAs (Decidable (b.mtime < a.mtime ∨ (a.mtime = b.mtime ∧ b.fname ≤ a.fname)))

/-- Modelled from the spec (§4.3): the paths prune deletes — everything past
the first `keepVersions` entries of the spec's ordering. -/
def specPruneDeleted (st : List DirEntry) (nm : FName) (keep : Int) : List FName :=
  ((List.insertionSort specPruneOrder
      (st.filter (fun e => globMatch (nm ++ "_*".toList) e.fname))).drop keep.toNat).map
    (fun e => e.fname)

/-! ### Lemma layer -/

theorem globMatchF_congr : ∀ f g p s, p.length + s.length < f →
    p.length + s.length < g → globMatchF f p s = globMatchF g p s := by
  intro f
  induction f with
  | zero => intro g p s h1 _; omega
  | succ f ih =>
    intro g p s h1 h2
    obtain ⟨g', rfl⟩ : ∃ g', g = g' + 1 := ⟨g - 1, by omega⟩
    match p, s with
    | [], s => rfl
    | p :: ps, [] =>
      simp only [globMatchF]
      rw [ih g' ps []
        (by first | omega | (simp only [List.length_cons, List.length_nil] at h1 ⊢; omega))
        (by first | omega | (simp only [List.length_cons, List.length_nil] at h2 ⊢; omega))]
    | p :: ps, c :: cs =>
      simp only [globMatchF]
      rw [ih g' ps (c :: cs)
          (by first | omega | (simp only [List.length_cons] at h1 ⊢; omega))
          (by first | omega | (simp only [List.length_cons] at h2 ⊢; omega)),
        ih g' (p :: ps) cs
          (by first | omega | (simp only [List.length_cons] at h1 ⊢; omega))
          (by first | omega | (simp only [List.length_cons] at h2 ⊢; omega)),
        ih g' ps cs
          (by first | omega | (simp only [List.length_cons] at h1 ⊢; omega))
          (by first | omega | (simp only [List.length_cons] at h2 ⊢; omega))]

theorem globMatch_nil (s : List Char) : globMatch [] s = s.isEmpty := rfl

theorem globMatch_cons_nil (p : Char) (ps : List Char) :
    globMatch (p :: ps) [] = (p = '*' && globMatch ps []) := by
  simp only [globMatch, globMatchF]
  rw [globMatchF_congr ((p :: ps).length + [].length) (ps.length + [].length + 1) ps []
    (by first | omega | (simp only [List.length_cons, List.length_nil]; omega))
    (by omega)]

theorem globMatch_cons_cons (p : Char) (ps : List Char) (c : Char) (cs : List Char) :
    globMatch (p :: ps) (c :: cs) =
      if p = '*' then globMatch ps (c :: cs) || globMatch (p :: ps) cs
      else if p = '?' then globMatch ps cs
      else p = c && globMatch ps cs := by
  simp only [globMatch, globMatchF]
  rw [globMatchF_congr ((p :: ps).length + (c :: cs).length) (ps.length + (c :: cs).length + 1)
    ps (c :: cs)
    (by first | omega | (simp only [List.length_cons]; omega)) (by omega)]
  rw [globMatchF_congr ((p :: ps).length + (c :: cs).length) ((p :: ps).length + cs.length + 1)
    (p :: ps) cs
    (by first | omega | (simp only [List.length_cons]; omega)) (by omega)]
  rw [globMatchF_congr ((p :: ps).length + (c :: cs).length) (ps.length + cs.length + 1)
    ps cs
    (by first | omega | (simp only [List.length_cons]; omega)) (by omega)]

/-- A `*` absorbs any string prepended to an already matching string. -/
theorem globMatch_star_absorb (p : List Char) :
    ∀ t s, globMatch p s = true → globMatch ('*' :: p) (t ++ s) = true := by
  intro t
  induction t with
  | nil =>
    intro s h
    cases s with
    | nil => rw [List.nil_append, globMatch_cons_nil, h]; rfl
    | cons c cs =>
      rw [List.nil_append, globMatch_cons_cons, if_pos rfl, h, Bool.true_or]
  | cons c t ih =>
    intro s h
    rw [List.cons_append, globMatch_cons_cons, if_pos rfl, ih s h, Bool.or_true]

/-- The pattern `xs*` matches `xs` followed by anything. -/
theorem globMatch_self_star (xs : List Char) :
    ∀ ys, globMatch (xs ++ ['*']) (xs ++ ys) = true := by
  induction xs with
  | nil =>
    intro ys
    have h := globMatch_star_absorb [] ys [] (by rw [globMatch_nil]; rfl)
    simpa using h
  | cons c xs ih =>
    intro ys
    rw [List.cons_append, List.cons_append, globMatch_cons_cons]
    by_cases hc : c = '*'
    · subst hc
      rw [if_pos rfl]
      have h2 := globMatch_star_absorb (xs ++ ['*']) [] (xs ++ ys) (ih ys)
      rw [List.nil_append] at h2
      rw [h2, Bool.or_true]
    · rw [if_neg hc]
      by_cases hq : c = '?'
      · rw [if_pos hq]; exact ih ys
      · rw [if_neg hq, ih ys]
        simp

/-- A pattern `xs*` with `xs` free of glob metacharacters matches exactly the
strings that begin with `xs`. -/
theorem globMatch_plain_star (xs : List Char) :
    (∀ c ∈ xs, globSpecial c = false) →
    ∀ s, globMatch (xs ++ ['*']) s = xs.isPrefixOf s := by
  induction xs with
  | nil =>
    intro _ s
    have h := globMatch_star_absorb [] s [] (by rw [globMatch_nil]; rfl)
    rw [List.append_nil] at h
    rw [List.nil_append, h]
    cases s <;> rfl
  | cons c xs ih =>
    intro hx
    have hcs : globSpecial c = false := hx c (List.mem_cons_self c xs)
    have hxs : ∀ a ∈ xs, globSpecial a = false := fun a ha => hx a (List.mem_cons_of_mem c ha)
    have hstar : ¬ c = '*' := by intro h; rw [h] at hcs; simp [globSpecial] at hcs
    have hq : ¬ c = '?' := by intro h; rw [h] at hcs; simp [globSpecial] at hcs
    intro s
    cases s with
    | nil =>
      rw [List.cons_append, globMatch_cons_nil]
      simp [hstar, List.isPrefixOf]
    | cons d ds =>
      rw [List.cons_append, globMatch_cons_cons, if_neg hstar, if_neg hq, ih hxs ds]
      by_cases hd : c = d
      · subst hd; simp [List.isPrefixOf]
      · simp [List.isPrefixOf, hd]

/-- The archive name built for `nm` always matches the cleanup pattern
`{nm}_*`, whatever characters `nm` contains. -/
theorem globMatch_buildArchiveName (nm ts : FName) (compression : String) :
    globMatch (nm ++ "_*".toList) (buildArchiveName nm ts compression) = true := by
  have e1 : nm ++ "_*".toList = (nm ++ ['_']) ++ ['*'] := by
    rw [List.append_assoc]; rfl
  have e2 : buildArchiveName nm ts compression
      = (nm ++ ['_']) ++ (ts ++ extFor compression) := by
    rw [buildArchiveName, List.append_assoc]; rfl
  rw [e1, e2]
  exact globMatch_self_star (nm ++ ['_']) (ts ++ extFor compression)

/-- For a logical name without glob metacharacters, the cleanup pattern
`{nm}_*` matches exactly the file names that begin with `{nm}_`. -/
theorem globMatch_pattern_eq (nm : FName) (h : ∀ c ∈ nm, globSpecial c = false)
    (s : FName) : globMatch (nm ++ "_*".toList) s = (nm ++ ['_']).isPrefixOf s := by
  have h2 : ∀ c ∈ nm ++ ['_'], globSpecial c = false := by
    intro c hc
    rcases List.mem_append.mp hc with h3 | h3
    · exact h c h3
    · simp only [List.mem_singleton] at h3
      subst h3
      rfl
  have e1 : nm ++ "_*".toList = (nm ++ ['_']) ++ ['*'] := by
    rw [List.append_assoc]; rfl
  rw [e1, globMatch_plain_star (nm ++ ['_']) h2 s]

/-! ### Suffix lemmas -/

theorem lastDotTail_eq_none (t : FName) : '.' ∉ t → lastDotTail t = none := by
  induction t with
  | nil => intro _; rfl
  | cons c cs ih =>
    intro ht
    have hc : ¬ c = '.' := by
      intro h
      exact ht (by rw [h]; exact List.mem_cons_self '.' cs)
    have hcs : lastDotTail cs = none := ih (fun h => ht (List.mem_cons_of_mem c h))
    simp only [lastDotTail, hcs, if_neg hc]

theorem lastDotTail_append (xs t : FName) (ht : '.' ∉ t) :
    lastDotTail (xs ++ '.' :: t) = some ('.' :: t) := by
  induction xs with
  | nil => simp [List.nil_append, lastDotTail, lastDotTail_eq_none t ht]
  | cons c cs ih => simp only [List.cons_append, lastDotTail, List.append_eq, ih]

theorem pySuffix_append (xs t : FName) (hx : xs ≠ []) (ht : '.' ∉ t) (htn : t ≠ []) :
    pySuffix (xs ++ '.' :: t) = '.' :: t := by
  have h1 : 2 ≤ ('.' :: t).length := by
    cases t with
    | nil => exact absurd rfl htn
    | cons a b => simp only [List.length_cons]; omega
  have h2 : ('.' :: t).length < (xs ++ '.' :: t).length := by
    cases xs with
    | nil => exact absurd rfl hx
    | cons a b => simp only [List.length_cons, List.length_append]; omega
  simp only [pySuffix, lastDotTail_append xs t ht]
  rw [if_pos (And.intro h1 h2)]

theorem splitDots_ne_nil (a : FName) : splitDots a ≠ [] := by
  induction a with
  | nil => simp [splitDots]
  | cons c cs ih =>
    rw [splitDots]
    by_cases hc : c = '.'
    · rw [if_pos hc]; simp
    · rw [if_neg hc]
      cases h : splitDots cs with
      | nil => exact absurd h ih
      | cons p ps => simp

theorem splitDots_append (a b : FName) :
    splitDots (a ++ '.' :: b) = splitDots a ++ splitDots b := by
  induction a with
  | nil => rfl
  | cons c cs ih =>
    by_cases hc : c = '.'
    · rw [List.cons_append, splitDots, if_pos hc, ih, splitDots, if_pos hc]
      rfl
    · rw [List.cons_append, splitDots, if_neg hc, ih, splitDots, if_neg hc]
      cases h : splitDots cs with
      | nil => exact absurd h (splitDots_ne_nil cs)
      | cons p ps => rfl

theorem dropDots_append (xs r : FName) :
    (∃ c ∈ xs, ¬ c = '.') → dropDots (xs ++ r) = dropDots xs ++ r ∧ dropDots xs ≠ [] := by
  induction xs with
  | nil => intro h; simp at h
  | cons c cs ih =>
    intro h
    by_cases hc : c = '.'
    · subst hc
      have h2 : ∃ a ∈ cs, ¬ a = '.' := by
        rcases h with ⟨a, ha, hne⟩
        rcases List.mem_cons.mp ha with h3 | h3
        · exact absurd h3 hne
        · exact ⟨a, h3, hne⟩
      have := ih h2
      constructor
      · rw [List.cons_append]
        show dropDots ('.' :: (cs ++ r)) = dropDots ('.' :: cs) ++ r
        simp only [dropDots, List.dropWhile_cons]
        simp only [decide_eq_true_eq, if_pos rfl]
        exact this.1
      · show dropDots ('.' :: cs) ≠ []
        simp only [dropDots, List.dropWhile_cons]
        simp only [decide_eq_true_eq, if_pos rfl]
        exact this.2
    · constructor
      · rw [List.cons_append]
        show dropDots (c :: (cs ++ r)) = dropDots (c :: cs) ++ r
        simp only [dropDots, List.dropWhile_cons, decide_eq_true_eq, if_neg hc]
        rfl
      · show dropDots (c :: cs) ≠ []
        simp only [dropDots, List.dropWhile_cons, decide_eq_true_eq, if_neg hc]
        simp

/-! ### Sniffing the names `create_backup` builds -/

theorem sniffCodec_zip (x : FName) (hx : x ≠ []) :
    sniffCodec (x ++ ".zip".toList) = Codec.zip := by
  have h : pySuffix (x ++ ".zip".toList) = ".zip".toList :=
    pySuffix_append x "zip".toList hx (by decide) (by decide)
  simp only [sniffCodec]
  rw [h]
  rw [if_pos rfl]

/-- `.tar` is among the Python suffixes of `x ++ ".tar"` whenever `x` has a
character other than a dot. -/
theorem tar_mem_suffixes (x : FName) (hx : ∃ c ∈ x, ¬ c = '.') :
    ".tar".toList ∈ pySuffixes (x ++ ".tar".toList) := by
  obtain ⟨hd, _⟩ := dropDots_append x ".tar".toList hx
  have hlast : (x ++ ".tar".toList).getLast? = some 'r' := by
    rw [List.getLast?_append]; rfl
  simp only [pySuffixes]
  rw [hlast]
  rw [if_neg (by decide : ¬ (some 'r' = some '.'))]
  rw [hd]
  have hsplit : splitDots (dropDots x ++ ".tar".toList)
      = splitDots (dropDots x) ++ [['t', 'a', 'r']] :=
    splitDots_append (dropDots x) "tar".toList
  rw [hsplit]
  cases hA : splitDots (dropDots x) with
  | nil => exact absurd hA (splitDots_ne_nil _)
  | cons p ps =>
    rw [List.cons_append, List.tail_cons, List.map_append]
    apply List.mem_append_right
    simp

/-- `.tar` is among the Python suffixes of `x ++ ".tar.gz"` whenever `x` has
a character other than a dot. -/
theorem tar_mem_suffixes_gz (x : FName) (hx : ∃ c ∈ x, ¬ c = '.') :
    ".tar".toList ∈ pySuffixes (x ++ ".tar.gz".toList) := by
  obtain ⟨hd, _⟩ := dropDots_append x ".tar.gz".toList hx
  have hlast : (x ++ ".tar.gz".toList).getLast? = some 'z' := by
    rw [List.getLast?_append]; rfl
  simp only [pySuffixes]
  rw [hlast]
  rw [if_neg (by decide : ¬ (some 'z' = some '.'))]
  rw [hd]
  have hsplit : splitDots (dropDots x ++ ".tar.gz".toList)
      = splitDots (dropDots x) ++ [['t', 'a', 'r'], ['g', 'z']] := by
    have h1 := splitDots_append (dropDots x) "tar.gz".toList
    have h2 : splitDots "tar.gz".toList = [['t', 'a', 'r'], ['g', 'z']] := by decide
    rw [h2] at h1
    exact h1
  rw [hsplit]
  cases hA : splitDots (dropDots x) with
  | nil => exact absurd hA (splitDots_ne_nil _)
  | cons p ps =>
    rw [List.cons_append, List.tail_cons, List.map_append]
    apply List.mem_append_right
    simp

theorem sniffCodec_tar (x : FName) (hx : x ≠ []) (hnd : ∃ c ∈ x, ¬ c = '.') :
    sniffCodec (x ++ ".tar".toList) = Codec.tar := by
  have h1 : pySuffix (x ++ ".tar".toList) = ".tar".toList :=
    pySuffix_append x "tar".toList hx (by decide) (by decide)
  simp only [sniffCodec]
  rw [h1]
  rw [if_neg (by decide : ¬ ((".tar".toList : FName) = ".zip".toList))]
  rw [if_pos (tar_mem_suffixes x hnd)]

theorem sniffCodec_targz (x : FName) (_hx : x ≠ []) (hnd : ∃ c ∈ x, ¬ c = '.') :
    sniffCodec (x ++ ".tar.gz".toList) = Codec.tar := by
  have h1 : pySuffix (x ++ ".tar.gz".toList) = ".gz".toList := by
    have e2 : x ++ ".tar.gz".toList = (x ++ ".tar".toList) ++ '.' :: "gz".toList := by
      rw [List.append_assoc]
      rfl
    rw [e2]
    exact pySuffix_append (x ++ ".tar".toList) "gz".toList (by simp) (by decide) (by decide)
  simp only [sniffCodec]
  rw [h1]
  rw [if_neg (by decide : ¬ ((".gz".toList : FName) = ".zip".toList))]
  rw [if_pos (tar_mem_suffixes_gz x hnd)]

/-- The name fragment `{nm}_{ts}` is never empty. -/
theorem core_ne_nil (nm ts : FName) : nm ++ '_' :: ts ≠ [] := by simp

/-- The name fragment `{nm}_{ts}` always holds the non-dot `'_'`. -/
theorem core_has_nondot (nm ts : FName) : ∃ c ∈ nm ++ '_' :: ts, ¬ c = '.' :=
  ⟨'_', by simp, by decide⟩

theorem buildArchiveName_assoc (nm ts : FName) (compression : String) :
    buildArchiveName nm ts compression = (nm ++ '_' :: ts) ++ extFor compression := by
  rw [buildArchiveName, List.append_assoc]
  rfl

theorem sniff_created_zip (nm ts : FName) :
    sniffCodec (buildArchiveName nm ts "zip") = Codec.zip := by
  rw [buildArchiveName_assoc]
  exact sniffCodec_zip (nm ++ '_' :: ts) (core_ne_nil nm ts)

theorem sniff_created_tar (nm ts : FName) :
    sniffCodec (buildArchiveName nm ts "tar") = Codec.tar := by
  rw [buildArchiveName_assoc]
  exact sniffCodec_tar (nm ++ '_' :: ts) (core_ne_nil nm ts) (core_has_nondot nm ts)

theorem sniff_created_targz (nm ts : FName) :
    sniffCodec (buildArchiveName nm ts "tar.gz") = Codec.tar := by
  rw [buildArchiveName_assoc]
  exact sniffCodec_targz (nm ++ '_' :: ts) (core_ne_nil nm ts) (core_has_nondot nm ts)

/-! ### Engine lemmas -/

theorem removeNames_nil (st : List DirEntry) : removeNames st [] = st := by
  rw [removeNames]
  apply List.filter_eq_self.mpr
  intro x _
  simp

theorem removeNames_cons (st : List DirEntry) (n : FName) (ns : List FName) :
    removeNames (st.filter (fun x => decide (¬ x.fname = n))) ns
      = removeNames st (n :: ns) := by
  rw [removeNames, removeNames, List.filter_filter]
  apply List.filter_congr
  intro x _
  by_cases h1 : x.fname = n <;> by_cases h2 : x.fname ∈ ns <;> simp [h1, h2]

/-- With no failing unlink, the loop deletes every listed archive and
reports no exception. -/
theorem deleteLoop_noFail (l : List DirEntry) : ∀ st : List DirEntry,
    deleteLoop (fun _ => false) st l
      = (l.map (fun e => e.fname), removeNames st (l.map (fun e => e.fname)), none) := by
  induction l with
  | nil =>
    intro st
    rw [deleteLoop, List.map_nil, removeNames_nil]
  | cons e rest ih =>
    intro st
    rw [deleteLoop]
    rw [if_neg (by simp : ¬ ((fun _ : FName => false) e.fname = true))]
    rw [ih (st.filter (fun x => decide (¬ x.fname = e.fname)))]
    rw [removeNames_cons]
    rfl

/-- The first failing unlink aborts the loop: everything before it is
deleted, the failure escapes, and nothing after it is attempted. -/
theorem deleteLoop_abort (failing : FName → Bool) :
    ∀ (pre st : List DirEntry) (e : DirEntry) (post : List DirEntry),
    (∀ d ∈ pre, failing d.fname = false) → failing e.fname = true →
    deleteLoop failing st (pre ++ e :: post)
      = (pre.map (fun d => d.fname),
         removeNames st (pre.map (fun d => d.fname)), some e.fname) := by
  intro pre
  induction pre with
  | nil =>
    intro st e post _ hf
    rw [List.nil_append, deleteLoop, if_pos hf, List.map_nil, removeNames_nil]
  | cons d pre ih =>
    intro st e post hpre hf
    have hd : failing d.fname = false := hpre d (List.mem_cons_self d pre)
    rw [List.cons_append, deleteLoop]
    rw [if_neg (by rw [hd]; simp)]
    rw [ih (st.filter (fun x => decide (¬ x.fname = d.fname))) e post
      (fun q hq => hpre q (List.mem_cons_of_mem d hq)) hf]
    rw [removeNames_cons]
    rfl

/-- Entries whose name differs from every listed deletion survive the loop,
whether or not it aborts. -/
theorem deleteLoop_keeps (failing : FName → Bool) :
    ∀ (l st : List DirEntry) (e : DirEntry), e ∈ st →
    (∀ d ∈ l, ¬ e.fname = d.fname) → e ∈ (deleteLoop failing st l).2.1 := by
  intro l
  induction l with
  | nil => intro st e he _; exact he
  | cons d rest ih =>
    intro st e he hnd
    rw [deleteLoop]
    by_cases hf : failing d.fname = true
    · rw [if_pos hf]; exact he
    · rw [if_neg hf]
      apply ih
      · rw [List.mem_filter]
        exact ⟨he, by simp [hnd d (List.mem_cons_self d rest)]⟩
      · intro q hq
        exact hnd q (List.mem_cons_of_mem d hq)

theorem pySliceFrom_sublist (xs : List α) (k : Int) : (pySliceFrom xs k).Sublist xs := by
  rw [pySliceFrom]
  split <;> exact List.drop_sublist _ _

theorem mem_sortCands (st : List DirEntry) (nm : FName) (e : DirEntry) :
    e ∈ sortCands st nm ↔ e ∈ st ∧ globMatch (nm ++ "_*".toList) e.fname = true := by
  rw [sortCands, (List.perm_insertionSort _ _).mem_iff, List.mem_filter]

/-- With at least one version kept, pruning right after the first backup of a
fresh directory deletes nothing. -/
theorem cleanupRun_singleton (failing : FName → Bool) (e : DirEntry) (nm : FName)
    (keep : Int) (hk : 1 ≤ keep) :
    cleanupRun failing [e] nm keep = ([], [e], none) := by
  have hlen : (sortCands [e] nm).length ≤ 1 := by
    have h0 := (List.perm_insertionSort mtimeDesc
      ([e].filter (fun x => globMatch (nm ++ "_*".toList) x.fname))).length_eq
    rw [sortCands, h0]
    exact le_trans (List.length_filter_le _ _) (by simp)
  have hslice : pySliceFrom (sortCands [e] nm) keep = [] := by
    rw [pySliceFrom, if_pos (by omega : (0:Int) ≤ keep)]
    have h1 : (1:Nat) ≤ keep.toNat := by omega
    exact List.drop_eq_nil_of_le (by omega)
  rw [cleanupRun, hslice]
  rfl

/-- `create_backup` against an empty backup directory with `keep_versions ≥ 1`:
the archive is written under the built name and survives pruning. -/
theorem createBackup_fresh (failing : FName → Bool) (src : Source) (name? : Option FName)
    (compression : String) (ts : FName) (now sz : Nat) (keep : Int) (hk : 1 ≤ keep) :
    createBackup failing (some src) name? compression ts now sz keep []
      = (CreateResult.ok (buildArchiveName (name?.getD src.sname) ts compression),
         [⟨buildArchiveName (name?.getD src.sname) ts compression, now, sz,
           makeArchive compression src⟩]) := by
  simp only [createBackup, List.nil_append]
  rw [cleanupRun_singleton failing _ _ keep hk]

theorem cleanupRun_noFail (st : List DirEntry) (nm : FName) (keep : Int) :
    cleanupRun (fun _ => false) st nm keep
      = ((pySliceFrom (sortCands st nm) keep).map (fun e => e.fname),
         removeNames st ((pySliceFrom (sortCands st nm) keep).map (fun e => e.fname)),
         none) := by
  rw [cleanupRun, deleteLoop_noFail]

theorem sortCands_sorted (st : List DirEntry) (nm : FName) :
    (sortCands st nm).Pairwise mtimeDesc := by
  rw [sortCands]
  exact List.sorted_insertionSort mtimeDesc _

theorem sortCands_names_nodup (st : List DirEntry) (nm : FName)
    (hnd : (st.map (fun e => e.fname)).Nodup) :
    ((sortCands st nm).map (fun e => e.fname)).Nodup := by
  have hperm := List.perm_insertionSort mtimeDesc
    (st.filter (fun x => globMatch (nm ++ "_*".toList) x.fname))
  have h1 : ((st.filter (fun x => globMatch (nm ++ "_*".toList) x.fname)).map
      (fun e => e.fname)).Nodup :=
    List.Nodup.sublist ((List.filter_sublist st).map _) hnd
  exact ((hperm.map _).nodup_iff).mpr h1

/-- With no unlink failure and `keep ≥ 0`, every candidate among the first
`keep` (newest) survives the prune untouched. -/
theorem cleanup_keeps_take (st : List DirEntry) (nm : FName) (keep : Int)
    (hk : 0 ≤ keep) (hnd : (st.map (fun e => e.fname)).Nodup) :
    ∀ e ∈ (sortCands st nm).take keep.toNat,
      e ∈ (cleanupRun (fun _ => false) st nm keep).2.1 := by
  intro e he
  rw [cleanupRun_noFail]
  rw [removeNames, List.mem_filter]
  have hesc : e ∈ sortCands st nm := List.mem_of_mem_take he
  refine ⟨((mem_sortCands st nm e).mp hesc).1, ?_⟩
  simp only [decide_eq_true_eq]
  intro hmem
  rw [pySliceFrom, if_pos hk] at hmem
  have hndc := sortCands_names_nodup st nm hnd
  have hsplit := List.take_append_drop keep.toNat (sortCands st nm)
  rw [← hsplit, List.map_append] at hndc
  have hdisj := List.disjoint_of_nodup_append hndc
  exact hdisj (List.mem_map_of_mem _ he) hmem

/-- With no unlink failure and `keep ≥ 0`, every candidate past the first
`keep` is deleted. -/
theorem cleanup_deletes_drop (st : List DirEntry) (nm : FName) (keep : Int)
    (hk : 0 ≤ keep) :
    ∀ e ∈ (sortCands st nm).drop keep.toNat,
      e ∉ (cleanupRun (fun _ => false) st nm keep).2.1 := by
  intro e he hcon
  rw [cleanupRun_noFail] at hcon
  rw [removeNames, List.mem_filter] at hcon
  have h1 : e.fname ∈ (pySliceFrom (sortCands st nm) keep).map (fun e => e.fname) := by
    rw [pySliceFrom, if_pos hk]
    exact List.mem_map_of_mem _ he
  have h2 := hcon.2
  simp only [decide_eq_true_eq] at h2
  exact h2 h1

/-- Python slicing with a negative index keeps all but the last
`min(-k, length)` elements: `xs[k:]` is the final segment. -/
theorem pySliceFrom_neg (xs : List α) (k : Int) (hk : k < 0) :
    pySliceFrom xs k = xs.drop (xs.length - min (-k).toNat xs.length) := by
  rw [pySliceFrom, if_neg (by omega)]
  congr 1
  omega

/-- `keep_versions = 0` prunes away every archive matching the name,
including the newest. -/
theorem cleanup_zero_keeps_none (st : List DirEntry) (nm : FName) :
    ((cleanupRun (fun _ => false) st nm 0).2.1).filter
      (fun e => globMatch (nm ++ "_*".toList) e.fname) = [] := by
  rw [cleanupRun_noFail, List.filter_eq_nil_iff]
  intro e he hmatch
  rw [removeNames, List.mem_filter] at he
  obtain ⟨hest, hpred⟩ := he
  simp only [decide_eq_true_eq] at hpred
  apply hpred
  have h0 : pySliceFrom (sortCands st nm) 0 = sortCands st nm := by
    rw [pySliceFrom, if_pos le_rfl]
    rfl
  rw [h0]
  exact List.mem_map_of_mem _ ((mem_sortCands st nm e).mpr ⟨hest, hmatch⟩)

/-! ### `list_backups` lemmas -/

theorem listBackups_sorted_names (st : List DirEntry) (name? : Option FName) :
    ((listBackups st name?).map (fun i => i.fname)).Pairwise (fun a b => a ≤ b) := by
  rw [listBackups, List.map_map, List.pairwise_map]
  exact List.sorted_insertionSort nameAsc _

theorem listBackups_perm (st : List DirEntry) (name? : Option FName) :
    (listBackups st name?).Perm
      ((st.filter (fun e => globMatch (listPattern name?) e.fname)).map toInfo) := by
  rw [listBackups]
  exact (List.perm_insertionSort nameAsc _).map toInfo

/-! ### Claim theorems -/

/-- C8: for every non-existent source path, `create_backup` detects the
missing source up front and returns the failure outcome `None`, with the
backup directory left exactly as it was — no archive file or directory is
created by the call. -/
theorem claim_C8 (failing : FName → Bool) (name? : Option FName) (compression : String)
    (ts : FName) (now sz : Nat) (keep : Int) (st : List DirEntry) :
    createBackup failing none name? compression ts now sz keep st
      = (CreateResult.noSource, st) := rfl

/-- C2: `restore_backup` never raises past its boundary: a missing archive
path yields the failure result `False` with nothing restored, and any
codec-level failure inside the `try` block is caught and reported as the
boolean failure result rather than propagated. -/
theorem claim_C2 (st : List DirEntry) (archName : FName) (dest : FPath) :
    (st.find? (fun e => e.fname == archName) = none →
      restoreBackup st archName dest = (false, []))
    ∧ (∀ (e : DirEntry) (err : String),
        st.find? (fun e => e.fname == archName) = some e →
        readArchive (sniffCodec archName) e.stored dest = Except.error err →
        restoreBackup st archName dest = (false, [])) := by
  constructor
  · intro h
    rw [restoreBackup, h]
  · intro e err h1 h2
    simp only [restoreBackup, h1, h2]

/-- Witness for C2: restoring the absent `x.zip` from an empty backup
directory returns `False`; restoring an entry named `x.tar` that holds a
plain non-TAR file hits the codec error and also returns `False`. -/
theorem claim_C2_witness :
    restoreBackup [] "x.zip".toList [] = (false, [])
    ∧ restoreBackup [⟨"x.tar".toList, 0, 0, Archive.plainFile [1]⟩] "x.tar".toList []
      = (false, []) :=
  ⟨(claim_C2 [] "x.zip".toList []).1 rfl,
   (claim_C2 [⟨"x.tar".toList, 0, 0, Archive.plainFile [1]⟩] "x.tar".toList []).2
     ⟨"x.tar".toList, 0, 0, Archive.plainFile [1]⟩ "ReadError" rfl rfl⟩

/-- C9: restore's format dispatch precedence on the archive file name: a
Python `suffix` of `.zip` selects the ZIP codec; otherwise `.tar` among the
Python `suffixes` selects the TAR codec, whose gzip framing comes from the
archive value itself (mode `r:*`), not from the name; any other name is
handled as a plain file-or-tree copy. -/
theorem claim_C9 (n : FName) :
    (pySuffix n = ".zip".toList → sniffCodec n = Codec.zip)
    ∧ (¬ pySuffix n = ".zip".toList → ".tar".toList ∈ pySuffixes n →
        sniffCodec n = Codec.tar)
    ∧ (¬ pySuffix n = ".zip".toList → ".tar".toList ∉ pySuffixes n →
        sniffCodec n = Codec.copy)
    ∧ (∀ (gz : Bool) (entries : List (FPath × Content)) (dest : FPath),
        readArchive Codec.tar (Archive.tarArc gz entries) dest
          = Except.ok (entries.map (fun e => (dest ++ e.1, Archive.plainFile e.2)))) := by
  refine ⟨?_, ?_, ?_, ?_⟩
  · intro h
    rw [sniffCodec, if_pos h]
  · intro h1 h2
    rw [sniffCodec, if_neg h1, if_pos h2]
  · intro h1 h2
    rw [sniffCodec, if_neg h1, if_neg h2]
  · intro gz entries dest
    rfl

/-- Witness for C9 on concrete names of each dispatch class, plus a gzipped
TAR value read by content. -/
theorem claim_C9_witness :
    sniffCodec "a_20240101_000000.zip".toList = Codec.zip
    ∧ sniffCodec "a_20240101_000000.tar.gz".toList = Codec.tar
    ∧ sniffCodec "a_20240101_000000".toList = Codec.copy
    ∧ readArchive Codec.tar (Archive.tarArc true [(["f".toList], [7])]) ["d".toList]
      = Except.ok [(["d".toList, "f".toList], Archive.plainFile [7])] :=
  ⟨(claim_C9 "a_20240101_000000.zip".toList).1 (by decide),
   (claim_C9 "a_20240101_000000.tar.gz".toList).2.1 (by decide) (by decide),
   (claim_C9 "a_20240101_000000".toList).2.2.1 (by decide) (by decide),
   rfl⟩

/-- C3 counterexample: two archives of `n` listed with the newer first in
directory order; `list_backups` returns them sorted ascending by file name —
oldest first by modification time — refuting "sorted descending by file
modification time" at this input. -/
theorem claim_C3_cex :
    ¬ ((listBackups [exMid, exOld] (some "n".toList)).Pairwise
        (fun a b => b.created ≤ a.created)) := by decide

/-- C3 amended: `list_backups` (with or without a name filter) returns
exactly the records of the matching archives, sorted ASCENDING by archive
file name — `sorted(...)` over the paths — not descending by modification
time. -/
theorem claim_C3 (st : List DirEntry) (name? : Option FName) :
    ((listBackups st name?).map (fun i => i.fname)).Pairwise (fun a b => a ≤ b)
    ∧ (listBackups st name?).Perm
        ((st.filter (fun e => globMatch (listPattern name?) e.fname)).map toInfo) :=
  ⟨listBackups_sorted_names st name?, listBackups_perm st name?⟩

/-- C4 counterexample: three archives of `n`, `keep_versions = -1`: the
Python slice `backups[-1:]` deletes only the single oldest archive, so two
archives for `n` remain — not the zero that "same as keepVersions = 0 /
keep exactly max(keepVersions, 0)" demands. -/
theorem claim_C4_cex :
    (((cleanupRun (fun _ => false) [exOld, exMid, exNew] "n".toList (-1)).2.1).filter
        (fun e => globMatch ("n".toList ++ "_*".toList) e.fname)).length = 2
    ∧ ¬ ((((cleanupRun (fun _ => false) [exOld, exMid, exNew] "n".toList (-1)).2.1).filter
        (fun e => globMatch ("n".toList ++ "_*".toList) e.fname)).length = 0) := by decide

/-- C4 amended: `keep_versions = 0` does prune every archive of the logical
name (zero remain, the fresh one included); but a negative `keep_versions`
is NOT the same: by Python slice semantics `backups[k:]` with `k < 0`
deletes only the last `min(-k, count)` (i.e. oldest) candidates of the
newest-first list and keeps the rest. -/
theorem claim_C4 (st : List DirEntry) (nm : FName) (k : Int) (hneg : k < 0) :
    ((cleanupRun (fun _ => false) st nm 0).2.1).filter
      (fun e => globMatch (nm ++ "_*".toList) e.fname) = []
    ∧ (cleanupRun (fun _ => false) st nm k).1
        = ((sortCands st nm).drop
            ((sortCands st nm).length - min (-k).toNat (sortCands st nm).length)).map
          (fun e => e.fname) := by
  constructor
  · exact cleanup_zero_keeps_none st nm
  · rw [cleanupRun_noFail, pySliceFrom_neg _ _ hneg]

/-- Witness for C4 at the fixture directory: `keep = 0` leaves nothing for
`n`; `keep = -1` deletes exactly the oldest of the three candidates. -/
theorem claim_C4_witness :
    ((cleanupRun (fun _ => false) [exOld, exMid, exNew] "n".toList 0).2.1).filter
      (fun e => globMatch ("n".toList ++ "_*".toList) e.fname) = []
    ∧ (cleanupRun (fun _ => false) [exOld, exMid, exNew] "n".toList (-1)).1
        = ((sortCands [exOld, exMid, exNew] "n".toList).drop
            ((sortCands [exOld, exMid, exNew] "n".toList).length
              - min ((-(-1 : Int)).toNat) (sortCands [exOld, exMid, exNew] "n".toList).length)).map
          (fun e => e.fname) :=
  ⟨(claim_C4 [exOld, exMid, exNew] "n".toList (-1) (by decide)).1,
   (claim_C4 [exOld, exMid, exNew] "n".toList (-1) (by decide)).2⟩

/-- C6 counterexample: the logical name `a*b` contains the glob character
`*`, yet building the archive name and the whole create succeed — the
archive is written with the `*` verbatim and its path is returned; no
`InvalidNameError` is raised (none exists in the code). -/
theorem claim_C6_cex :
    createBackup (fun _ => false) (some exSrcFile) (some "a*b".toList) "zip" exTs 10 5 3 []
      = (CreateResult.ok "a*b_20240105_120000.zip".toList,
         [⟨"a*b_20240105_120000.zip".toList, 10, 5,
           Archive.zipArc [(["data.txt".toList], [1, 2, 3])]⟩]) := by decide

/-- C6 amended: `create_backup` validates nothing about the logical name:
any name — one containing the glob character `*` included — is embedded
verbatim in the archive file name and the create succeeds and returns that
path (file names are flat in this model; a path separator would fail at the
OS layer as an ordinary I/O error, and `InvalidNameError` does not exist in
the code). -/
theorem claim_C6 (src : Source) (nm ts : FName) (compression : String)
    (now sz : Nat) (keep : Int) (hk : 1 ≤ keep) (_hglob : '*' ∈ nm) :
    createBackup (fun _ => false) (some src) (some nm) compression ts now sz keep []
      = (CreateResult.ok (buildArchiveName nm ts compression),
         [⟨buildArchiveName nm ts compression, now, sz, makeArchive compression src⟩]) :=
  createBackup_fresh (fun _ => false) src (some nm) compression ts now sz keep hk

/-- Witness for C6: the name `a*b` with the tar format. -/
theorem claim_C6_witness :
    createBackup (fun _ => false) (some exSrcFile) (some "a*b".toList) "tar" exTs 10 5 3 []
      = (CreateResult.ok (buildArchiveName "a*b".toList exTs "tar"),
         [⟨buildArchiveName "a*b".toList exTs "tar", 10, 5, makeArchive "tar" exSrcFile⟩]) :=
  claim_C6 exSrcFile "a*b".toList exTs "tar" 10 5 3 (by decide) (by decide)

/-- C5 counterexample: three archives of `n`, `keep_versions = 1`, and a
permission failure unlinking the middle prune candidate: `create_backup`
lets the exception escape instead of returning the new path, and the
remaining candidate `n_20240101_000000` is never attempted — it survives. -/
theorem claim_C5_cex :
    (createBackup (fun f => f == "n_20240102_000000".toList) (some exSrcFile)
        (some "n".toList) "zip" exTs 400 5 1 [exOld, exMid, exNew]).1
      = CreateResult.raised "n_20240102_000000".toList
    ∧ exOld ∈ (createBackup (fun f => f == "n_20240102_000000".toList) (some exSrcFile)
        (some "n".toList) "zip" exTs 400 5 1 [exOld, exMid, exNew]).2 := by decide

/-- C5 amended: the deletion loop of `_cleanup_old_backups` has no exception
handling, so the first failing unlink aborts it: candidates before the
failure are deleted, the candidates after it are not attempted (they stay in
the directory), and the exception escapes `create_backup`, which therefore
returns no success result. -/
theorem claim_C5 (failing : FName → Bool) (src : Source) (name? : Option FName)
    (compression : String) (ts : FName) (now sz : Nat) (keep : Int)
    (st pre post : List DirEntry) (e : DirEntry)
    (hslice : pySliceFrom (sortCands
        (st ++ [⟨buildArchiveName (name?.getD src.sname) ts compression, now, sz,
          makeArchive compression src⟩]) (name?.getD src.sname)) keep
      = pre ++ e :: post)
    (hpre : ∀ d ∈ pre, failing d.fname = false)
    (hf : failing e.fname = true) :
    createBackup failing (some src) name? compression ts now sz keep st
      = (CreateResult.raised e.fname,
         removeNames
           (st ++ [⟨buildArchiveName (name?.getD src.sname) ts compression, now, sz,
             makeArchive compression src⟩])
           (pre.map (fun d => d.fname)))
    ∧ ∀ d ∈ post, (∀ q ∈ pre, ¬ d.fname = q.fname) →
        d ∈ (createBackup failing (some src) name? compression ts now sz keep st).2 := by
  have hrun : cleanupRun failing
      (st ++ [⟨buildArchiveName (name?.getD src.sname) ts compression, now, sz,
        makeArchive compression src⟩]) (name?.getD src.sname) keep
      = (pre.map (fun d => d.fname),
         removeNames
           (st ++ [⟨buildArchiveName (name?.getD src.sname) ts compression, now, sz,
             makeArchive compression src⟩])
           (pre.map (fun d => d.fname)), some e.fname) := by
    rw [cleanupRun, hslice]
    exact deleteLoop_abort failing pre _ e post hpre hf
  constructor
  · simp only [createBackup, hrun]
  · intro d hd hq
    simp only [createBackup, hrun]
    rw [removeNames, List.mem_filter]
    constructor
    · have hdsl : d ∈ pySliceFrom (sortCands
          (st ++ [⟨buildArchiveName (name?.getD src.sname) ts compression, now, sz,
            makeArchive compression src⟩]) (name?.getD src.sname)) keep := by
        rw [hslice]
        exact List.mem_append_right _ (List.mem_cons_of_mem e hd)
      have hdc := (pySliceFrom_sublist _ keep).subset hdsl
      exact ((mem_sortCands _ _ d).mp hdc).1
    · simp only [decide_eq_true_eq]
      intro hmem
      obtain ⟨q, hq2, hqe⟩ := List.mem_map.mp hmem
      exact hq q hq2 hqe.symm

/-- Witness for C5: the concrete abort of the counterexample, derived by
applying the theorem at `pre = [exNew]`, failing entry `exMid`,
`post = [exOld]`. -/
theorem claim_C5_witness :
    createBackup (fun f => f == "n_20240102_000000".toList) (some exSrcFile)
        (some "n".toList) "zip" exTs 400 5 1 [exOld, exMid, exNew]
      = (CreateResult.raised "n_20240102_000000".toList,
         removeNames
           ([exOld, exMid, exNew]
             ++ [⟨buildArchiveName "n".toList exTs "zip", 400, 5,
               makeArchive "zip" exSrcFile⟩])
           ([exNew].map (fun d => d.fname)))
    ∧ exOld ∈ (createBackup (fun f => f == "n_20240102_000000".toList) (some exSrcFile)
        (some "n".toList) "zip" exTs 400 5 1 [exOld, exMid, exNew]).2 := by
  have h := claim_C5 (fun f => f == "n_20240102_000000".toList) exSrcFile
    (some "n".toList) "zip" exTs 400 5 1 [exOld, exMid, exNew] [exNew] [exOld] exMid
    (by decide) (by decide) (by decide)
  exact ⟨h.1, h.2 exOld (by decide) (by decide)⟩

/-- C7 counterexample: two candidates for `n` with equal modification
times. The spec's prescription (ties broken by file name descending) would
keep `n_b` and delete (and return) `n_a`; the code's stable sort keeps the
directory enumeration order, so it keeps `n_a` and deletes `n_b` — and
`_cleanup_old_backups` returns `None`, not the deleted list. -/
theorem claim_C7_cex :
    (cleanupRun (fun _ => false) [exTieA, exTieB] "n".toList 1).1 = ["n_b".toList]
    ∧ specPruneDeleted [exTieA, exTieB] "n".toList 1 = ["n_a".toList]
    ∧ ¬ ((cleanupRun (fun _ => false) [exTieA, exTieB] "n".toList 1).1
        = specPruneDeleted [exTieA, exTieB] "n".toList 1) := by decide

/-- C7 amended: pruning orders the name's archives by modification time
descending with ties retaining the directory enumeration order (Python's
`sorted` is stable — not the spec's name-descending tie-break), leaves the
first `keep_versions` entries untouched, deletes every remaining candidate
from storage, and returns nothing (the deletions are only logged). -/
theorem claim_C7 (st : List DirEntry) (nm : FName) (keep : Int)
    (hk : 0 ≤ keep) (hnd : (st.map (fun e => e.fname)).Nodup) :
    (sortCands st nm).Pairwise mtimeDesc
    ∧ (cleanupRun (fun _ => false) st nm keep).1
        = ((sortCands st nm).drop keep.toNat).map (fun e => e.fname)
    ∧ (∀ e ∈ (sortCands st nm).take keep.toNat,
        e ∈ (cleanupRun (fun _ => false) st nm keep).2.1)
    ∧ (∀ e ∈ (sortCands st nm).drop keep.toNat,
        e ∉ (cleanupRun (fun _ => false) st nm keep).2.1) := by
  refine ⟨sortCands_sorted st nm, ?_, cleanup_keeps_take st nm keep hk hnd,
    cleanup_deletes_drop st nm keep hk⟩
  rw [cleanupRun_noFail, pySliceFrom, if_pos hk]

/-- Witness for C7 at the fixture directory with `keep = 1`: the two older
archives are deleted (newest-first order), the newest survives, the oldest
does not. -/
theorem claim_C7_witness :
    (cleanupRun (fun _ => false) [exOld, exMid, exNew] "n".toList 1).1
      = ["n_20240102_000000".toList, "n_20240101_000000".toList]
    ∧ exNew ∈ (cleanupRun (fun _ => false) [exOld, exMid, exNew] "n".toList 1).2.1
    ∧ exOld ∉ (cleanupRun (fun _ => false) [exOld, exMid, exNew] "n".toList 1).2.1 := by
  have h := claim_C7 [exOld, exMid, exNew] "n".toList 1 (by decide) (by decide)
  refine ⟨?_, h.2.2.1 exNew (by decide), h.2.2.2 exOld (by decide)⟩
  rw [h.2.1]
  decide

/-- C10: the prune candidate set for a create under logical name `nm`
(taken without glob metacharacters) is exactly the directory entries whose
file name begins with `{nm}_`; an archive built for a different logical
name that itself begins with `{nm}_` (such as `n_history` under `n`) is
matched and hence at risk of deletion, while entries not beginning with
`{nm}_` survive any create under `nm` untouched. -/
theorem claim_C10 (st : List DirEntry) (nm : FName)
    (hplain : ∀ c ∈ nm, globSpecial c = false) :
    (sortCands st nm).Perm
        (st.filter (fun e => (nm ++ ['_']).isPrefixOf e.fname))
    ∧ (∀ (m ts2 : FName) (compression : String),
        (nm ++ ['_']).isPrefixOf m = true →
        globMatch (nm ++ "_*".toList) (buildArchiveName m ts2 compression) = true)
    ∧ (∀ (failing : FName → Bool) (src : Source) (compression : String) (ts : FName)
        (now sz : Nat) (keep : Int) (e : DirEntry), e ∈ st →
        (nm ++ ['_']).isPrefixOf e.fname = false →
        e ∈ (createBackup failing (some src) (some nm) compression ts now sz keep st).2) := by
  refine ⟨?_, ?_, ?_⟩
  · have hfil : st.filter (fun e => globMatch (nm ++ "_*".toList) e.fname)
        = st.filter (fun e => (nm ++ ['_']).isPrefixOf e.fname) :=
      List.filter_congr (fun e _ => globMatch_pattern_eq nm hplain e.fname)
    rw [sortCands, hfil]
    exact List.perm_insertionSort _ _
  · intro m ts2 comp hm
    obtain ⟨r, hr⟩ := List.isPrefixOf_iff_prefix.mp hm
    have e1 : nm ++ "_*".toList = (nm ++ ['_']) ++ ['*'] := by
      rw [List.append_assoc]
      rfl
    have e2 : buildArchiveName m ts2 comp
        = (nm ++ ['_']) ++ (r ++ '_' :: (ts2 ++ extFor comp)) := by
      rw [buildArchiveName, ← hr, List.append_assoc]
    rw [e1, e2]
    exact globMatch_self_star _ _
  · intro failing src comp ts now sz keep e he hpref
    have hkeep : ∀ d ∈ pySliceFrom (sortCands
        (st ++ [⟨buildArchiveName nm ts comp, now, sz, makeArchive comp src⟩]) nm) keep,
        ¬ e.fname = d.fname := by
      intro d hd heq
      have hdc := (pySliceFrom_sublist _ keep).subset hd
      have hdm := ((mem_sortCands _ nm d).mp hdc).2
      rw [globMatch_pattern_eq nm hplain d.fname, ← heq, hpref] at hdm
      exact Bool.false_ne_true hdm
    have hmem : e ∈ st ++ [⟨buildArchiveName nm ts comp, now, sz, makeArchive comp src⟩] :=
      List.mem_append_left _ he
    have hfin := deleteLoop_keeps failing _ _ e hmem hkeep
    simp only [createBackup, Option.getD_some]
    split <;> exact hfin

/-- Witness for C10: in a directory holding `n`'s newest archive, an
`n_history` archive and an unrelated `m_...` archive, the candidate set for
`n` is the `n_`-prefixed pair, the `n_history` archive name matches `n`'s
pattern, and the `m_...` archive survives a create under `n`. -/
theorem claim_C10_witness :
    (sortCands [exNew, exHist, exOther] "n".toList).Perm
        ([exNew, exHist, exOther].filter
          (fun e => ("n".toList ++ ['_']).isPrefixOf e.fname))
    ∧ globMatch ("n".toList ++ "_*".toList)
        (buildArchiveName "n_history".toList exTs "zip") = true
    ∧ exOther ∈ (createBackup (fun _ => false) (some exSrcFile) (some "n".toList) "zip"
        exTs 400 5 1 [exNew, exHist, exOther]).2 := by
  have h := claim_C10 [exNew, exHist, exOther] "n".toList (by decide)
  exact ⟨h.1, h.2.1 "n_history".toList exTs "zip" (by decide),
    h.2.2 (fun _ => false) exSrcFile "zip" exTs 400 5 1 exOther (by decide) (by decide)⟩

/-- Shape of every successful restore in the round-trip: the restored items
are the source files under an injected path transform, so contents are
reproduced one-for-one and every source file is present somewhere. -/
theorem restored_shape_props (src : Source) (g : FPath → FPath)
    (l : List (FPath × Archive))
    (hl : l = (sourceFiles src).map (fun f => (g f.1, Archive.plainFile f.2))) :
    l.map (fun it => it.2) = (sourceFiles src).map (fun f => Archive.plainFile f.2)
    ∧ ∀ f ∈ sourceFiles src, ∃ q, (q, Archive.plainFile f.2) ∈ l := by
  subst hl
  constructor
  · rw [List.map_map]
    rfl
  · intro f hf
    exact ⟨g f.1, List.mem_map_of_mem _ hf⟩

/-- C1 counterexample: a file named `a.tar.b` backed up with the
no-compression format. The create succeeds and returns the plain copy
`a.tar.b_20240105_120000`, but that name carries `.tar` among its Python
suffixes, so restore dispatches to the TAR codec, `tarfile.open` fails on a
non-TAR file, and `restore_backup` returns `False`: the round trip fails. -/
theorem claim_C1_cex :
    (createBackup (fun _ => false) (some exSrcTar) none "none" exTs 10 5 3 []).1
      = CreateResult.ok "a.tar.b_20240105_120000".toList
    ∧ (restoreBackup
        (createBackup (fun _ => false) (some exSrcTar) none "none" exTs 10 5 3 []).2
        "a.tar.b_20240105_120000".toList ["d".toList]).1 = false := by decide

/-- C1 amended: from a fresh backup directory with `keep_versions ≥ 1`,
`create_backup(source)` followed by `restore_backup` of the returned path
into a fresh destination succeeds and reproduces every file of the source
byte-for-byte — unconditionally for the zip, tar and tar.gz formats, and
for the uncompressed format whenever the built archive name does not sniff
as a container (which fails for source names with a `.tar.` infix, see the
counterexample). -/
theorem claim_C1 (src : Source) (compression : String) (ts : FName)
    (now sz : Nat) (keep : Int) (dest : FPath) (hk : 1 ≤ keep)
    (hfmt : compression = "zip" ∨ compression = "tar" ∨ compression = "tar.gz"
      ∨ sniffCodec (buildArchiveName src.sname ts compression) = Codec.copy) :
    (createBackup (fun _ => false) (some src) none compression ts now sz keep []).1
      = CreateResult.ok (buildArchiveName src.sname ts compression)
    ∧ (restoreBackup
        (createBackup (fun _ => false) (some src) none compression ts now sz keep []).2
        (buildArchiveName src.sname ts compression) dest).1 = true
    ∧ ((restoreBackup
        (createBackup (fun _ => false) (some src) none compression ts now sz keep []).2
        (buildArchiveName src.sname ts compression) dest).2).map (fun it => it.2)
        = (sourceFiles src).map (fun f => Archive.plainFile f.2)
    ∧ ∀ f ∈ sourceFiles src, ∃ q, (q, Archive.plainFile f.2)
        ∈ (restoreBackup
            (createBackup (fun _ => false) (some src) none compression ts now sz keep []).2
            (buildArchiveName src.sname ts compression) dest).2 := by
  have hcreate := createBackup_fresh (fun _ => false) src none compression ts now sz keep hk
  simp only [Option.getD_none] at hcreate
  have hok : (createBackup (fun _ => false) (some src) none compression ts now sz keep []).1
      = CreateResult.ok (buildArchiveName src.sname ts compression) := by
    rw [hcreate]
  have hstate : (createBackup (fun _ => false) (some src) none compression ts now sz keep []).2
      = [⟨buildArchiveName src.sname ts compression, now, sz,
          makeArchive compression src⟩] := by
    rw [hcreate]
  have hrest : ∀ (a : Archive) (L : List (FPath × Archive)),
      readArchive (sniffCodec (buildArchiveName src.sname ts compression)) a dest
        = Except.ok L →
      restoreBackup [⟨buildArchiveName src.sname ts compression, now, sz, a⟩]
        (buildArchiveName src.sname ts compression) dest = (true, L) := by
    intro a L hread
    have hfind : List.find?
        (fun e : DirEntry => e.fname == buildArchiveName src.sname ts compression)
        [⟨buildArchiveName src.sname ts compression, now, sz, a⟩]
        = some ⟨buildArchiveName src.sname ts compression, now, sz, a⟩ :=
      List.find?_cons_of_pos _ (by simp)
    simp only [restoreBackup, hfind, hread]
  rw [hstate]
  refine ⟨hok, ?_⟩
  rcases hfmt with h | h | h | h
  · subst h
    cases src with
    | file n c =>
      have hread : readArchive (sniffCodec (buildArchiveName (Source.file n c).sname ts "zip"))
          (makeArchive "zip" (Source.file n c)) dest
          = Except.ok ((sourceFiles (Source.file n c)).map
              (fun f => (dest ++ f.1, Archive.plainFile f.2))) := by
        rw [sniff_created_zip]
        rfl
      rw [hrest _ _ hread]
      have hp := restored_shape_props (Source.file n c) (fun p => dest ++ p) _ rfl
      exact ⟨rfl, hp.1, hp.2⟩
    | dir n fs =>
      have hread : readArchive (sniffCodec (buildArchiveName (Source.dir n fs).sname ts "zip"))
          (makeArchive "zip" (Source.dir n fs)) dest
          = Except.ok ((sourceFiles (Source.dir n fs)).map
              (fun f => (dest ++ n :: f.1, Archive.plainFile f.2))) := by
        rw [sniff_created_zip]
        exact congrArg Except.ok (by rw [List.map_map]; rfl)
      rw [hrest _ _ hread]
      have hp := restored_shape_props (Source.dir n fs) (fun p => dest ++ n :: p) _ rfl
      exact ⟨rfl, hp.1, hp.2⟩
  · subst h
    cases src with
    | file n c =>
      have hread : readArchive (sniffCodec (buildArchiveName (Source.file n c).sname ts "tar"))
          (makeArchive "tar" (Source.file n c)) dest
          = Except.ok ((sourceFiles (Source.file n c)).map
              (fun f => (dest ++ f.1, Archive.plainFile f.2))) := by
        rw [sniff_created_tar]
        rfl
      rw [hrest _ _ hread]
      have hp := restored_shape_props (Source.file n c) (fun p => dest ++ p) _ rfl
      exact ⟨rfl, hp.1, hp.2⟩
    | dir n fs =>
      have hread : readArchive (sniffCodec (buildArchiveName (Source.dir n fs).sname ts "tar"))
          (makeArchive "tar" (Source.dir n fs)) dest
          = Except.ok ((sourceFiles (Source.dir n fs)).map
              (fun f => (dest ++ n :: f.1, Archive.plainFile f.2))) := by
        rw [sniff_created_tar]
        exact congrArg Except.ok (by rw [List.map_map]; rfl)
      rw [hrest _ _ hread]
      have hp := restored_shape_props (Source.dir n fs) (fun p => dest ++ n :: p) _ rfl
      exact ⟨rfl, hp.1, hp.2⟩
  · subst h
    cases src with
    | file n c =>
      have hread : readArchive (sniffCodec (buildArchiveName (Source.file n c).sname ts "tar.gz"))
          (makeArchive "tar.gz" (Source.file n c)) dest
          = Except.ok ((sourceFiles (Source.file n c)).map
              (fun f => (dest ++ f.1, Archive.plainFile f.2))) := by
        rw [sniff_created_targz]
        rfl
      rw [hrest _ _ hread]
      have hp := restored_shape_props (Source.file n c) (fun p => dest ++ p) _ rfl
      exact ⟨rfl, hp.1, hp.2⟩
    | dir n fs =>
      have hread : readArchive (sniffCodec (buildArchiveName (Source.dir n fs).sname ts "tar.gz"))
          (makeArchive "tar.gz" (Source.dir n fs)) dest
          = Except.ok ((sourceFiles (Source.dir n fs)).map
              (fun f => (dest ++ n :: f.1, Archive.plainFile f.2))) := by
        rw [sniff_created_targz]
        exact congrArg Except.ok (by rw [List.map_map]; rfl)
      rw [hrest _ _ hread]
      have hp := restored_shape_props (Source.dir n fs) (fun p => dest ++ n :: p) _ rfl
      exact ⟨rfl, hp.1, hp.2⟩
  · have hz : ¬ compression = "zip" := by
      intro hc
      subst hc
      rw [sniff_created_zip] at h
      exact Codec.noConfusion h
    have ht : ¬ compression = "tar" := by
      intro hc
      subst hc
      rw [sniff_created_tar] at h
      exact Codec.noConfusion h
    have hg : ¬ compression = "tar.gz" := by
      intro hc
      subst hc
      rw [sniff_created_targz] at h
      exact Codec.noConfusion h
    have hmk : makeArchive compression src = createCopyBackup src := by
      rw [makeArchive, if_neg hz, if_neg ht, if_neg hg]
    cases src with
    | file n c =>
      have hread : readArchive (sniffCodec (buildArchiveName (Source.file n c).sname ts compression))
          (makeArchive compression (Source.file n c)) dest
          = Except.ok ((sourceFiles (Source.file n c)).map
              (fun f => (dest, Archive.plainFile f.2))) := by
        rw [h, hmk]
        rfl
      rw [hrest _ _ hread]
      have hp := restored_shape_props (Source.file n c) (fun _ => dest) _ rfl
      exact ⟨rfl, hp.1, hp.2⟩
    | dir n fs =>
      have hread : readArchive (sniffCodec (buildArchiveName (Source.dir n fs).sname ts compression))
          (makeArchive compression (Source.dir n fs)) dest
          = Except.ok ((sourceFiles (Source.dir n fs)).map
              (fun f => (dest ++ f.1, Archive.plainFile f.2))) := by
        rw [h, hmk]
        rfl
      rw [hrest _ _ hread]
      have hp := restored_shape_props (Source.dir n fs) (fun p => dest ++ p) _ rfl
      exact ⟨rfl, hp.1, hp.2⟩

/-- Witness for C1: the tar.gz round trip of a directory holding `a.txt`
and `sub/b.txt`. -/
theorem claim_C1_witness :
    (createBackup (fun _ => false) (some exSrcDir) none "tar.gz" exTs 10 5 3 []).1
      = CreateResult.ok (buildArchiveName exSrcDir.sname exTs "tar.gz")
    ∧ (restoreBackup
        (createBackup (fun _ => false) (some exSrcDir) none "tar.gz" exTs 10 5 3 []).2
        (buildArchiveName exSrcDir.sname exTs "tar.gz") ["d".toList]).1 = true
    ∧ ((restoreBackup
        (createBackup (fun _ => false) (some exSrcDir) none "tar.gz" exTs 10 5 3 []).2
        (buildArchiveName exSrcDir.sname exTs "tar.gz") ["d".toList]).2).map (fun it => it.2)
        = [Archive.plainFile [1], Archive.plainFile [2]]
    ∧ ∃ q, (q, Archive.plainFile [1])
        ∈ (restoreBackup
            (createBackup (fun _ => false) (some exSrcDir) none "tar.gz" exTs 10 5 3 []).2
            (buildArchiveName exSrcDir.sname exTs "tar.gz") ["d".toList]).2 := by
  have h := claim_C1 exSrcDir "tar.gz" exTs 10 5 3 ["d".toList] (by decide)
    (Or.inr (Or.inr (Or.inl rfl)))
  refine ⟨h.1, h.2.1, ?_, h.2.2.2 (["a.txt".toList], [1]) (by decide)⟩
  rw [h.2.2.1]
  decide

end Pyautokit
